import Mathlib

/-!
# Verification of the batchrun resumable batch execution engine

Shallow embedding of the core of the `batchrun` repository:

* `src/argmapper/cli.py` — command identity hashing (`cmd_hash`), grid
  expansion (`generate_commands`, `get_cmd_arg_str`), flag re-parsing
  (`parse_args`), and the `launch` resume planner plus its state-store
  merge loop;
* `src/batchrun/spec.py` — grid-specification parsing (`parse_spec`),
  including the `min`/`max`/`step` numeric ranges.

Python dictionaries are embedded as association lists with insert-or-replace
update (preserving JSON object insertion order); Python integers as `Int`;
the floating-point timestamps carried (but never computed upon) by execution
records as `Rat`; fallible code as `Except`.
-/

set_option maxHeartbeats 1000000

namespace Batchrun

/-- A YAML scalar parameter value as it appears in a grid specification
(integers and strings are the cases the repository manipulates). -/
inductive Value where
  | VInt (z : Int)
  | VStr (s : String)
  deriving DecidableEq, Repr

/-- An execution record, as stored in the JSON state database
(`src/argmapper/cli.py:74-80` builds one per finished command; the planner
at line 277 reads `status` with `.get`, so `status` may be absent in a
loaded record — hence `Option Int`). -/
structure Record where
  start : Rat
  runtime : Rat
  status : Option Int
  command : String
  parameters : List (String × String)
  deriving DecidableEq, Repr

/-- The state database `state_db`: a JSON object keyed by command hash,
embedded as an association list in insertion order
(`src/argmapper/cli.py:246-252`). -/
abbrev StateDb := List (String × Record)

/-- The run mode strings handled by `launch`
(`src/argmapper/cli.py:272-293`). -/
inductive Mode where
  | resume
  | overwrite
  | retry_failed
  deriving DecidableEq, Repr

/-- Result of the resume planner: the job queue and the two counters
`num_skipped` and `num_fails` (`src/argmapper/cli.py:268-270`). -/
structure PlanResult where
  job_queue : List String
  num_skipped : Nat
  num_fails : Nat
  deriving DecidableEq, Repr

section Hash

/-- `2^32`, the word modulus of SHA-256. -/
def M32 : Nat := 4294967296

/-- Right rotation of a 32-bit word. -/
def rotr (k n : Nat) : Nat := ((n >>> k) ||| (n <<< (32 - k))) % M32

/-- SHA-256 small sigma-0. -/
def ssig0 (w : Nat) : Nat := rotr 7 w ^^^ rotr 18 w ^^^ (w >>> 3)

/-- SHA-256 small sigma-1. -/
def ssig1 (w : Nat) : Nat := rotr 17 w ^^^ rotr 19 w ^^^ (w >>> 10)

/-- SHA-256 big Sigma-0. -/
def bsig0 (a : Nat) : Nat := rotr 2 a ^^^ rotr 13 a ^^^ rotr 22 a

/-- SHA-256 big Sigma-1. -/
def bsig1 (e : Nat) : Nat := rotr 6 e ^^^ rotr 11 e ^^^ rotr 25 e

/-- SHA-256 choice function (the complement of a 32-bit word `e` is
`(M32 - 1) ^^^ e`). -/
def chf (e f g : Nat) : Nat := (e &&& f) ^^^ (((M32 - 1) ^^^ e) &&& g)

/-- SHA-256 majority function. -/
def majf (a b c : Nat) : Nat := (a &&& b) ^^^ (a &&& c) ^^^ (b &&& c)

/-- The eight working variables of the SHA-256 compression function. -/
structure Words8 where
  a : Nat
  b : Nat
  c : Nat
  d : Nat
  e : Nat
  f : Nat
  g : Nat
  h : Nat
  deriving DecidableEq, Repr

/-- SHA-256 initial hash value (fractional parts of the square roots of the
first eight primes). -/
def sha256init : Words8 :=
  ⟨1779033703, 3144134277, 1013904242, 2773480762,
   1359893119, 2600822924, 528734635, 1541459225⟩

/-- SHA-256 round constants (fractional parts of the cube roots of the first
64 primes). -/
def sha256k : List Nat :=
  [1116352408, 1899447441, 3049323471, 3921009573,
   961987163, 1508970993, 2453635748, 2870763221,
   3624381080, 310598401, 607225278, 1426881987,
   1925078388, 2162078206, 2614888103, 3248222580,
   3835390401, 4022224774, 264347078, 604807628,
   770255983, 1249150122, 1555081692, 1996064986,
   2554220882, 2821834349, 2952996808, 3210313671,
   3336571891, 3584528711, 113926993, 338241895,
   666307205, 773529912, 1294757372, 1396182291,
   1695183700, 1986661051, 2177026350, 2456956037,
   2730485921, 2820302411, 3259730800, 3345764771,
   3516065817, 3600352804, 4094571909, 275423344,
   430227734, 506948616, 659060556, 883997877,
   958139571, 1322822218, 1537002063, 1747873779,
   1955562222, 2024104815, 2227730452, 2361852424,
   2428436474, 2756734187, 3204031479, 3329325298]

/-- SHA-256 message padding: append `0x80`, zero bytes, and the 64-bit
big-endian bit length, reaching a multiple of 64 bytes. -/
def sha256pad (msg : List Nat) : List Nat :=
  msg ++ [128] ++ List.replicate ((64 - (msg.length + 9) % 64) % 64) 0
      ++ (List.range 8).map (fun i => (msg.length * 8) >>> (56 - 8 * i) % 256)

/-- Split a 64-byte block into sixteen big-endian 32-bit words. -/
def blockWords (block : List Nat) : List Nat :=
  (List.range 16).map (fun j =>
    ((block.getD (4 * j) 0 * 256 + block.getD (4 * j + 1) 0) * 256
      + block.getD (4 * j + 2) 0) * 256 + block.getD (4 * j + 3) 0)

/-- Extend sixteen message words to the 64-entry SHA-256 message schedule. -/
def sha256schedule (block : List Nat) : List Nat :=
  (List.range 48).foldl
    (fun ws _ =>
      ws ++ [(ssig1 (ws.getD (ws.length - 2) 0) + ws.getD (ws.length - 7) 0
              + ssig0 (ws.getD (ws.length - 15) 0) + ws.getD (ws.length - 16) 0) % M32])
    (blockWords block)

/-- One SHA-256 round. -/
def sha256round (st : Words8) (kw : Nat × Nat) : Words8 :=
  let t1 := (st.h + bsig1 st.e + chf st.e st.f st.g + kw.1 + kw.2) % M32
  let t2 := (bsig0 st.a + majf st.a st.b st.c) % M32
  ⟨(t1 + t2) % M32, st.a, st.b, st.c, (st.d + t1) % M32, st.e, st.f, st.g⟩

/-- SHA-256 compression of one 64-byte block into the running hash state. -/
def sha256compress (st : Words8) (block : List Nat) : Words8 :=
  let w := sha256schedule block
  let r := (sha256k.zip w).foldl sha256round st
  ⟨(st.a + r.a) % M32, (st.b + r.b) % M32, (st.c + r.c) % M32, (st.d + r.d) % M32,
   (st.e + r.e) % M32, (st.f + r.f) % M32, (st.g + r.g) % M32, (st.h + r.h) % M32⟩

/-- The final SHA-256 state over a byte string. -/
def sha256final (msg : List Nat) : Words8 :=
  let padded := sha256pad msg
  (List.range (padded.length / 64)).foldl
    (fun st i => sha256compress st ((padded.drop (64 * i)).take 64)) sha256init

/-- The eight digest words of a SHA-256 state. -/
def digestWords (st : Words8) : List Nat :=
  [st.a, st.b, st.c, st.d, st.e, st.f, st.g, st.h]

/-- A hexadecimal digit character. -/
def hexDigit (n : Nat) : Char :=
  Char.ofNat (if n < 10 then 48 + n else 87 + n)

/-- Big-endian 8-hex-digit rendering of a 32-bit word. -/
def hex8 (w : Nat) : List Char :=
  (List.range 8).map (fun i => hexDigit (w / 16 ^ (7 - i) % 16))

/-- `hashlib.sha256(...).hexdigest()` over a byte string, as a character
list. -/
def sha256hexdigest (msg : List Nat) : List Char :=
  ((digestWords (sha256final msg)).map hex8).flatten

/-- UTF-8 encoding of one character (Python `str.encode()`). -/
def utf8Char (c : Char) : List Nat :=
  let n := c.toNat
  if n < 128 then [n]
  else if n < 2048 then [192 + n / 64, 128 + n % 64]
  else if n < 65536 then [224 + n / 4096, 128 + n / 64 % 64, 128 + n % 64]
  else [240 + n / 262144, 128 + n / 4096 % 64, 128 + n / 64 % 64, 128 + n % 64]

/-- UTF-8 encoding of a string (Python `cmd.encode()`). -/
def utf8Bytes (s : String) : List Nat :=
  (s.data.map utf8Char).flatten

/-- `cmd_hash` (`src/argmapper/cli.py:57-58`):
`hashlib.sha256(cmd.encode()).hexdigest()[:16]`. -/
def cmd_hash (cmd : String) : String :=
  String.mk ((sha256hexdigest (utf8Bytes cmd)).take 16)

end Hash

/-- Python dict lookup `d[k]` / `k in d` on an association list. -/
def db_get : StateDb → String → Option Record
  | [], _ => none
  | p :: rest, key => if p.1 = key then some p.2 else db_get rest key

/-- The resume/retry-failed planning loop body of `launch`
(`src/argmapper/cli.py:272-288`), with `retry = true` for mode
`retry_failed`.  The Python loop appends to `job_queue` and bumps the two
counters in command order; the equivalent structural recursion prepends the
head command's contribution to the plan for the remaining commands. -/
def planGo (retry : Bool) (state_db : StateDb) : List String → PlanResult
  | [] => ⟨[], 0, 0⟩
  | command :: rest =>
    let r := planGo retry state_db rest
    match db_get state_db (cmd_hash command) with
    | none => ⟨command :: r.job_queue, r.num_skipped, r.num_fails⟩
    | some record =>
      match record.status with
      | none => r
      | some s =>
        if s = 0 then ⟨r.job_queue, r.num_skipped + 1, r.num_fails⟩
        else if retry then ⟨command :: r.job_queue, r.num_skipped, r.num_fails + 1⟩
        else ⟨r.job_queue, r.num_skipped + 1, r.num_fails + 1⟩

/-- The resume planner of `launch` (`src/argmapper/cli.py:268-293`): restore
or initialize the job queue and the `num_skipped` / `num_fails` counters
from the state database according to the run mode. -/
def plan (mode : Mode) (state_db : StateDb) (commands : List String) : PlanResult :=
  match mode with
  | .resume => planGo false state_db commands
  | .retry_failed => planGo true state_db commands
  | .overwrite => ⟨commands, 0, 0⟩

/-- Modelled from the spec: the per-command decision table of section 4.3,
keyed on the run mode and the prior outcome (`none` = no prior record,
`some s` = prior exit status `s`) — whether the command is enqueued. -/
def table_enqueue (mode : Mode) : Option Int → Bool
  | none => true
  | some s =>
    match mode with
    | .resume => false
    | .overwrite => true
    | .retry_failed => s != 0

/-- Modelled from the spec: the decision table of section 4.3 — whether the
command contributes 1 to the `skipped` counter. -/
def table_skip (mode : Mode) : Option Int → Bool
  | none => false
  | some s =>
    match mode with
    | .resume => true
    | .overwrite => false
    | .retry_failed => s == 0

/-- Modelled from the spec: the decision table of section 4.3 — whether the
command contributes 1 to the `failed` counter. -/
def table_fail (mode : Mode) : Option Int → Bool
  | none => false
  | some s =>
    match mode with
    | .resume => s != 0
    | .overwrite => false
    | .retry_failed => s != 0

/-- The prior outcome the planner keys on: the `status` field of the state
database record stored under the command's hash, if any. -/
def prior_status (state_db : StateDb) (command : String) : Option Int :=
  (db_get state_db (cmd_hash command)).bind Record.status

/-- A state database is well formed when every stored record carries a
`status` field (as every record written by `exec_job` does,
`src/argmapper/cli.py:74-80`). -/
def WFDb (state_db : StateDb) : Prop :=
  ∀ p ∈ state_db, (Record.status p.2).isSome = true

section PlanLemmas

theorem db_get_mem {k : String} {r : Record} :
    ∀ {db : StateDb}, db_get db k = some r → (k, r) ∈ db := by
  intro db
  induction db with
  | nil => intro h; simp [db_get] at h
  | cons p rest ih =>
    intro h
    rw [db_get] at h
    by_cases hk : p.1 = k
    · rw [if_pos hk] at h
      simp at h
      subst h
      subst hk
      exact List.mem_cons_self _ _
    · rw [if_neg hk] at h
      exact List.mem_cons_of_mem _ (ih h)

theorem prior_status_eq_some_of_wf {db : StateDb} (hwf : WFDb db) {k : String}
    {r : Record} (h : db_get db k = some r) :
    ∃ s, r.status = some s := by
  have hmem := db_get_mem h
  have := hwf _ hmem
  simp only at this
  exact Option.isSome_iff_exists.mp this

theorem planGo_table (retry : Bool) (db : StateDb) (hwf : WFDb db) :
    ∀ commands : List String,
      planGo retry db commands =
        ⟨commands.filter (fun c => table_enqueue (if retry then .retry_failed else .resume) (prior_status db c)),
         commands.countP (fun c => table_skip (if retry then .retry_failed else .resume) (prior_status db c)),
         commands.countP (fun c => table_fail (if retry then .retry_failed else .resume) (prior_status db c))⟩ := by
  intro commands
  induction commands with
  | nil => simp [planGo]
  | cons c rest ih =>
    rw [planGo, ih]
    cases hl : db_get db (cmd_hash c) with
    | none =>
      have hp : prior_status db c = none := by
        simp [prior_status, hl]
      simp only [List.filter_cons, List.countP_cons, hp, table_enqueue, table_skip, table_fail]
      cases retry <;> simp
    | some record =>
      obtain ⟨s, hs⟩ := prior_status_eq_some_of_wf hwf hl
      have hp : prior_status db c = some s := by
        simp [prior_status, hl, hs]
      simp only [hs]
      by_cases hz : s = 0
      · subst hz
        simp only [List.filter_cons, List.countP_cons, hp, table_enqueue, table_skip, table_fail]
        cases retry <;> simp
      · simp only [List.filter_cons, List.countP_cons, hp, table_enqueue, table_skip, table_fail]
        cases retry <;> simp [hz]

end PlanLemmas

/-- C1: For every ordered command list, state store whose records carry a
status, and run mode, the resume planner produces the job queue as a
subsequence of the input list with original order preserved, selected per
command by the decision table of section 4.3: in `Resume` mode a command is
enqueued iff it has no prior record, otherwise it is skipped with `skipped`
incremented by 1 and, when the prior status is nonzero, `failed` also
incremented by 1; in `Overwrite` mode every command is enqueued; in
`RetryFailed` mode a command with no prior record is enqueued, one with
prior status 0 is skipped with `skipped` incremented by 1, and one with
prior nonzero status is enqueued with `failed` incremented by 1. -/
theorem planner_decision_table (mode : Mode) (db : StateDb) (commands : List String)
    (hwf : WFDb db) :
    plan mode db commands =
      ⟨commands.filter (fun c => table_enqueue mode (prior_status db c)),
       commands.countP (fun c => table_skip mode (prior_status db c)),
       commands.countP (fun c => table_fail mode (prior_status db c))⟩
    ∧ (plan mode db commands).job_queue.Sublist commands := by
  have htable : plan mode db commands =
      ⟨commands.filter (fun c => table_enqueue mode (prior_status db c)),
       commands.countP (fun c => table_skip mode (prior_status db c)),
       commands.countP (fun c => table_fail mode (prior_status db c))⟩ := by
    cases mode with
    | resume => exact planGo_table false db hwf commands
    | retry_failed => exact planGo_table true db hwf commands
    | overwrite =>
      simp only [plan, table_enqueue, table_skip, table_fail]
      have h1 : commands.filter
          (fun c => match prior_status db c with | none => true | some _ => true) = commands := by
        rw [List.filter_eq_self]
        intro c _
        cases prior_status db c <;> rfl
      have h2 : commands.countP
          (fun c => match prior_status db c with | none => false | some _ => false) = 0 := by
        rw [List.countP_eq_zero]
        intro c _
        cases prior_status db c <;> simp
      rw [h1, h2]
  refine ⟨htable, ?_⟩
  rw [htable]
  exact List.filter_sublist _

/-- C1 witness: a concrete run of the planner through the decision table. -/
theorem planner_decision_table_witness :
    WFDb [("k", ⟨0, 0, some 1, "c", []⟩)]
    ∧ (plan .resume [("k", ⟨0, 0, some 1, "c", []⟩)] ["x"] =
        ⟨["x"].filter (fun c => table_enqueue .resume (prior_status [("k", ⟨0, 0, some 1, "c", []⟩)] c)),
         ["x"].countP (fun c => table_skip .resume (prior_status [("k", ⟨0, 0, some 1, "c", []⟩)] c)),
         ["x"].countP (fun c => table_fail .resume (prior_status [("k", ⟨0, 0, some 1, "c", []⟩)] c))⟩
      ∧ (plan .resume [("k", ⟨0, 0, some 1, "c", []⟩)] ["x"]).job_queue.Sublist ["x"]) := by
  have hwf : WFDb [("k", ⟨0, 0, some 1, "c", []⟩)] := by
    intro p hp
    simp at hp
    subst hp
    rfl
  exact ⟨hwf, planner_decision_table .resume _ ["x"] hwf⟩

/-- Python dict assignment `d[k] = v` on an insertion-ordered association
list: replace the entry in place when the key is present, else append. -/
def db_set (db : StateDb) (key : String) (record : Record) : StateDb :=
  if key ∈ db.map Prod.fst
  then db.map (fun p => if p.1 = key then (key, record) else p)
  else db ++ [(key, record)]

/-- The state-store merge loop of `launch` (`src/argmapper/cli.py:309-311`):
each result is written into `state_db` under the hash of its command text.
The batch loop (`cli.py:302-321`) only groups consecutive results, so the
state database left after the last batch equals this single fold over all
results in queue order. -/
def merge_results (db : StateDb) (results : List Record) : StateDb :=
  results.foldl (fun d r => db_set d (cmd_hash r.command) r) db

/-- The effect of one `launch` invocation on the state database
(`src/argmapper/cli.py:268-321`): plan the job queue from the current
database, run it, and merge the resulting records.  The execution oracle
`exec` stands for `exec_job` (`cli.py:61-80`), which always returns a
record for the executed command text. -/
def launch_state (mode : Mode) (exec : String → Record)
    (commands : List String) (db : StateDb) : StateDb :=
  merge_results db ((plan mode db commands).job_queue.map exec)

/-- A Python dict, loaded from JSON, never holds two entries with the same
key. -/
def NodupKeys (db : StateDb) : Prop := (db.map Prod.fst).Nodup

section StoreLemmas

theorem db_get_eq_none_of_not_mem_keys {k : String} :
    ∀ {db : StateDb}, k ∉ db.map Prod.fst → db_get db k = none := by
  intro db
  induction db with
  | nil => intro _; rfl
  | cons p rest ih =>
    intro h
    obtain ⟨k1, r1⟩ := p
    simp only [List.map_cons, List.mem_cons, not_or] at h
    rw [db_get, if_neg (fun he => h.1 he.symm)]
    exact ih h.2

theorem db_get_isSome_iff_mem_keys {k : String} :
    ∀ {db : StateDb}, (db_get db k).isSome = true ↔ k ∈ db.map Prod.fst := by
  intro db
  induction db with
  | nil => simp [db_get]
  | cons p rest ih =>
    obtain ⟨k1, r1⟩ := p
    rw [db_get]
    by_cases hk : k1 = k
    · subst hk
      simp
    · rw [if_neg hk]
      simp only [List.map_cons, List.mem_cons, ih]
      exact (or_iff_right (fun he => hk he.symm)).symm

theorem db_get_append_right_of_ne {k k2 : String} {r : Record} (hne : k2 ≠ k) :
    ∀ {db : StateDb}, db_get (db ++ [(k, r)]) k2 = db_get db k2 := by
  intro db
  induction db with
  | nil =>
    show (if k = k2 then some r else db_get [] k2) = db_get [] k2
    rw [if_neg (fun he => hne he.symm)]
  | cons p rest ih =>
    obtain ⟨k1, r1⟩ := p
    rw [List.cons_append]
    simp only [db_get]
    by_cases h12 : k1 = k2
    · rw [if_pos h12, if_pos h12]
    · rw [if_neg h12, if_neg h12, ih]

theorem db_get_append_self {k : String} {r : Record} :
    ∀ {db : StateDb}, db_get db k = none → db_get (db ++ [(k, r)]) k = some r := by
  intro db
  induction db with
  | nil =>
    intro _
    show (if k = k then some r else db_get [] k) = some r
    rw [if_pos rfl]
  | cons p rest ih =>
    intro h
    obtain ⟨k1, r1⟩ := p
    rw [db_get] at h
    by_cases h1 : k1 = k
    · rw [if_pos h1] at h
      exact absurd h (by simp)
    · rw [if_neg h1] at h
      rw [List.cons_append, db_get, if_neg h1]
      exact ih h

theorem db_get_map_replace_self {k : String} {r : Record} :
    ∀ {db : StateDb}, k ∈ db.map Prod.fst →
      db_get (db.map (fun p => if p.1 = k then (k, r) else p)) k = some r := by
  intro db
  induction db with
  | nil => intro h; simp at h
  | cons p rest ih =>
    intro h
    obtain ⟨k1, r1⟩ := p
    simp only [List.map_cons]
    by_cases h1 : k1 = k
    · rw [if_pos h1, db_get, if_pos rfl]
    · rw [if_neg h1, db_get, if_neg h1]
      apply ih
      simp only [List.map_cons, List.mem_cons] at h
      rcases h with he | hm
      · exact absurd he.symm h1
      · exact hm

theorem db_get_map_replace_ne {k k2 : String} {r : Record} (hne : k2 ≠ k) :
    ∀ {db : StateDb},
      db_get (db.map (fun p => if p.1 = k then (k, r) else p)) k2 = db_get db k2 := by
  intro db
  induction db with
  | nil => rfl
  | cons p rest ih =>
    obtain ⟨k1, r1⟩ := p
    simp only [List.map_cons]
    by_cases h1 : k1 = k
    · rw [if_pos h1]
      simp only [db_get]
      rw [if_neg (fun (he : k = k2) => hne he.symm),
        if_neg (fun (he : k1 = k2) => hne (he ▸ h1)), ih]
    · rw [if_neg h1]
      simp only [db_get]
      by_cases h12 : k1 = k2
      · rw [if_pos h12, if_pos h12]
      · rw [if_neg h12, if_neg h12, ih]

theorem db_get_db_set_self {db : StateDb} {k : String} {r : Record} :
    db_get (db_set db k r) k = some r := by
  rw [db_set]
  by_cases hmem : k ∈ db.map Prod.fst
  · rw [if_pos hmem]
    exact db_get_map_replace_self hmem
  · rw [if_neg hmem]
    exact db_get_append_self (db_get_eq_none_of_not_mem_keys hmem)

theorem db_get_db_set_ne {db : StateDb} {k k2 : String} {r : Record}
    (hne : k2 ≠ k) : db_get (db_set db k r) k2 = db_get db k2 := by
  rw [db_set]
  by_cases hmem : k ∈ db.map Prod.fst
  · rw [if_pos hmem]
    exact db_get_map_replace_ne hne
  · rw [if_neg hmem]
    exact db_get_append_right_of_ne hne

theorem keys_map_replace {k : String} {r : Record} :
    ∀ {db : StateDb},
      (db.map (fun p => if p.1 = k then (k, r) else p)).map Prod.fst = db.map Prod.fst := by
  intro db
  induction db with
  | nil => rfl
  | cons p rest ih =>
    obtain ⟨k1, r1⟩ := p
    simp only [List.map_cons]
    by_cases h1 : k1 = k
    · rw [if_pos h1, ih, h1]
    · rw [if_neg h1, ih]

theorem keys_db_set {db : StateDb} {k : String} {r : Record} :
    (db_set db k r).map Prod.fst =
      if k ∈ db.map Prod.fst then db.map Prod.fst else db.map Prod.fst ++ [k] := by
  rw [db_set]
  by_cases hmem : k ∈ db.map Prod.fst
  · rw [if_pos hmem, if_pos hmem]
    exact keys_map_replace
  · rw [if_neg hmem, if_neg hmem, List.map_append]
    rfl

theorem nodup_keys_db_set {db : StateDb} {k : String} {r : Record}
    (h : NodupKeys db) : NodupKeys (db_set db k r) := by
  rw [NodupKeys, keys_db_set]
  by_cases hmem : k ∈ db.map Prod.fst
  · rw [if_pos hmem]
    exact h
  · rw [if_neg hmem]
    exact List.Nodup.append h (List.nodup_singleton k) (by
      intro a ha hb
      simp at hb
      subst hb
      exact hmem ha)

theorem mem_db_set {db : StateDb} {k : String} {r : Record} {p : String × Record}
    (h : p ∈ db_set db k r) : p ∈ db ∨ p = (k, r) := by
  rw [db_set] at h
  by_cases hmem : k ∈ db.map Prod.fst
  · rw [if_pos hmem] at h
    obtain ⟨q, hq, hqe⟩ := List.mem_map.mp h
    by_cases hk : q.1 = k
    · rw [if_pos hk] at hqe
      exact Or.inr hqe.symm
    · rw [if_neg hk] at hqe
      exact Or.inl (hqe ▸ hq)
  · rw [if_neg hmem] at h
    rcases List.mem_append.mp h with h1 | h2
    · exact Or.inl h1
    · simp at h2
      exact Or.inr h2

theorem entry_db_set_self {db : StateDb} {k : String} {r r2 : Record}
    (h : (k, r2) ∈ db_set db k r) : r2 = r := by
  rw [db_set] at h
  by_cases hmem : k ∈ db.map Prod.fst
  · rw [if_pos hmem] at h
    obtain ⟨q, hq, hqe⟩ := List.mem_map.mp h
    by_cases hk : q.1 = k
    · rw [if_pos hk] at hqe
      injection hqe with h1 h2
      exact h2.symm
    · rw [if_neg hk] at hqe
      exact absurd (by rw [hqe]) hk
  · rw [if_neg hmem] at h
    rcases List.mem_append.mp h with h1 | h2
    · exact absurd (List.mem_map_of_mem Prod.fst h1) hmem
    · simp at h2
      exact h2

theorem db_get_db_set_isSome {db : StateDb} {k key : String} {r : Record}
    (h : (db_get db k).isSome = true) :
    (db_get (db_set db key r) k).isSome = true := by
  by_cases hk : k = key
  · subst hk
    rw [db_get_db_set_self]
    rfl
  · rw [db_get_db_set_ne hk]
    exact h

theorem db_get_merge_isSome_mono {k : String} {rs : List Record} :
    ∀ {db : StateDb}, (db_get db k).isSome = true →
      (db_get (merge_results db rs) k).isSome = true := by
  induction rs with
  | nil => intro db h; exact h
  | cons r rest ih =>
    intro db h
    rw [merge_results, List.foldl_cons]
    exact ih (db_get_db_set_isSome h)

theorem db_get_merge_isSome_of_mem {k : String} {rs : List Record} {r : Record}
    (hmem : r ∈ rs) (hk : cmd_hash r.command = k) :
    ∀ {db : StateDb}, (db_get (merge_results db rs) k).isSome = true := by
  induction rs with
  | nil => simp at hmem
  | cons r0 rest ih =>
    intro db
    rw [merge_results, List.foldl_cons]
    rcases List.mem_cons.mp hmem with h1 | h2
    · subst h1
      refine @db_get_merge_isSome_mono k rest _ ?_
      rw [← hk, db_get_db_set_self]
      rfl
    · exact ih h2

theorem mem_merge_results {p : String × Record} {rs : List Record} :
    ∀ {db : StateDb}, p ∈ merge_results db rs →
      p ∈ db ∨ ∃ r ∈ rs, p = (cmd_hash r.command, r) := by
  induction rs with
  | nil => intro db h; exact Or.inl h
  | cons r rest ih =>
    intro db h
    rw [merge_results, List.foldl_cons] at h
    rcases ih h with h1 | ⟨r2, hr2, he⟩
    · rcases mem_db_set h1 with h3 | h4
      · exact Or.inl h3
      · exact Or.inr ⟨r, List.mem_cons_self _ _, h4⟩
    · exact Or.inr ⟨r2, List.mem_cons_of_mem _ hr2, he⟩

theorem nodup_keys_merge_results {rs : List Record} :
    ∀ {db : StateDb}, NodupKeys db → NodupKeys (merge_results db rs) := by
  induction rs with
  | nil => intro db h; exact h
  | cons r rest ih =>
    intro db h
    rw [merge_results, List.foldl_cons]
    exact ih (nodup_keys_db_set h)

theorem plan_enqueues_unrecorded {db : StateDb} {c : String}
    (hl : db_get db (cmd_hash c) = none) (retry : Bool) :
    ∀ {commands : List String}, c ∈ commands →
      c ∈ (planGo retry db commands).job_queue := by
  intro commands
  induction commands with
  | nil => intro h; simp at h
  | cons c0 rest ih =>
    intro h
    rw [planGo]
    rcases List.mem_cons.mp h with h1 | h2
    · subst h1
      rw [hl]
      exact List.mem_cons_self _ _
    · cases h0 : db_get db (cmd_hash c0) with
      | none => exact List.mem_cons_of_mem _ (ih h2)
      | some record =>
        cases hst : record.status with
        | none =>
          simp only [hst]
          exact ih h2
        | some s =>
          simp only [hst]
          by_cases hz : s = 0
          · rw [if_pos hz]
            exact ih h2
          · rw [if_neg hz]
            cases retry with
            | true => exact List.mem_cons_of_mem _ (ih h2)
            | false => exact ih h2

theorem planGo_all_skipped {db : StateDb} :
    ∀ {commands : List String},
      (∀ c ∈ commands, ∃ s, prior_status db c = some s) →
      (planGo false db commands).job_queue = []
      ∧ (planGo false db commands).num_skipped = commands.length := by
  intro commands
  induction commands with
  | nil => intro _; exact ⟨rfl, rfl⟩
  | cons c rest ih =>
    intro h
    obtain ⟨s, hs⟩ := h c (List.mem_cons_self _ _)
    rw [prior_status] at hs
    obtain ⟨record, hrec, hst⟩ := Option.bind_eq_some.mp hs
    have ihr := ih (fun c2 hc2 => h c2 (List.mem_cons_of_mem _ hc2))
    rw [planGo, hrec]
    simp only [hst]
    by_cases hz : s = 0
    · subst hz
      rw [if_pos rfl]
      exact ⟨ihr.1, by simp [ihr.2]⟩
    · rw [if_neg hz]
      simp only [Bool.false_eq_true, if_false]
      exact ⟨ihr.1, by simp [ihr.2]⟩

end StoreLemmas

/-- C7: the state store keeps at most one record per `CommandId`: writing a
record under a key that is already present replaces the old record in place
(last write wins, no history), and after an overwrite-mode launch the store
holds exactly one record under the hash of each command in the list. -/
theorem state_store_last_write_wins :
    (∀ (db : StateDb) (k : String) (r : Record), NodupKeys db →
        db_get (db_set db k r) k = some r
        ∧ NodupKeys (db_set db k r)
        ∧ ((db_set db k r).map Prod.fst).count k = 1
        ∧ ∀ r2, (k, r2) ∈ db_set db k r → r2 = r)
    ∧ (∀ (exec : String → Record) (commands : List String) (db : StateDb),
        (∀ c, (exec c).command = c) → NodupKeys db →
        NodupKeys (launch_state .overwrite exec commands db)
        ∧ ∀ c ∈ commands,
            ((launch_state .overwrite exec commands db).map Prod.fst).count (cmd_hash c) = 1) := by
  constructor
  · intro db k r hnd
    refine ⟨db_get_db_set_self, nodup_keys_db_set hnd, ?_, fun r2 h => entry_db_set_self h⟩
    have hmem : k ∈ (db_set db k r).map Prod.fst := by
      rw [← db_get_isSome_iff_mem_keys, db_get_db_set_self]
      rfl
    exact List.count_eq_one_of_mem (nodup_keys_db_set hnd) hmem
  · intro exec commands db hexec hnd
    have hnd2 : NodupKeys (launch_state .overwrite exec commands db) :=
      nodup_keys_merge_results hnd
    refine ⟨hnd2, fun c hc => ?_⟩
    have hmem : exec c ∈ (plan .overwrite db commands).job_queue.map exec := by
      rw [plan]
      exact List.mem_map_of_mem exec hc
    have hsome : (db_get (launch_state .overwrite exec commands db) (cmd_hash c)).isSome = true := by
      rw [launch_state]
      exact db_get_merge_isSome_of_mem hmem (by rw [hexec c])
    have hk : cmd_hash c ∈ (launch_state .overwrite exec commands db).map Prod.fst :=
      db_get_isSome_iff_mem_keys.mp hsome
    exact List.count_eq_one_of_mem hnd2 hk

/-- C7 witness: a concrete replacement and a concrete overwrite launch. -/
theorem state_store_last_write_wins_witness :
    NodupKeys [("k", ⟨0, 0, some 1, "c", []⟩)]
    ∧ (db_get (db_set [("k", ⟨0, 0, some 1, "c", []⟩)] "k" ⟨1, 1, some 0, "c", []⟩) "k"
        = some ⟨1, 1, some 0, "c", []⟩
      ∧ NodupKeys (db_set [("k", ⟨0, 0, some 1, "c", []⟩)] "k" ⟨1, 1, some 0, "c", []⟩)
      ∧ ((db_set [("k", ⟨0, 0, some 1, "c", []⟩)] "k" ⟨1, 1, some 0, "c", []⟩).map Prod.fst).count "k" = 1
      ∧ ∀ r2, ("k", r2) ∈ db_set [("k", ⟨0, 0, some 1, "c", []⟩)] "k" ⟨1, 1, some 0, "c", []⟩ →
          r2 = ⟨1, 1, some 0, "c", []⟩)
    ∧ (NodupKeys (launch_state .overwrite (fun c => ⟨0, 0, some 0, c, []⟩) ["a"] [])
      ∧ ∀ c ∈ ["a"],
          ((launch_state .overwrite (fun c => ⟨0, 0, some 0, c, []⟩) ["a"] []).map Prod.fst).count (cmd_hash c) = 1) := by
  have hnd : NodupKeys [("k", (⟨0, 0, some 1, "c", []⟩ : Record))] := by
    rw [NodupKeys]
    simp
  exact ⟨hnd,
    state_store_last_write_wins.1 _ "k" ⟨1, 1, some 0, "c", []⟩ hnd,
    state_store_last_write_wins.2 (fun c => ⟨0, 0, some 0, c, []⟩) ["a"] []
      (fun c => rfl) (by rw [NodupKeys]; simp)⟩

/-- C3: running `launch` a second time in resume mode, with no intervening
change to the runfile or the state store, leaves the state store unchanged
(the planner enqueues nothing, so no record is created or modified) and
reports every command as skipped. -/
theorem launch_resume_second_run_noop (exec : String → Record) (commands : List String)
    (db0 : StateDb)
    (hexec : ∀ c, (exec c).command = c ∧ ((exec c).status).isSome = true)
    (hdb : WFDb db0) :
    (plan .resume (launch_state .resume exec commands db0) commands).job_queue = []
    ∧ (plan .resume (launch_state .resume exec commands db0) commands).num_skipped
        = commands.length
    ∧ launch_state .resume exec commands (launch_state .resume exec commands db0)
        = launch_state .resume exec commands db0 := by
  have hwf1 : WFDb (launch_state .resume exec commands db0) := by
    intro p hp
    rcases mem_merge_results hp with h1 | ⟨r, hr, he⟩
    · exact hdb p h1
    · obtain ⟨c, _, hce⟩ := List.mem_map.mp hr
      subst he
      rw [← hce]
      exact (hexec c).2
  have hall : ∀ c ∈ commands, ∃ s,
      prior_status (launch_state .resume exec commands db0) c = some s := by
    intro c hc
    have hsome : (db_get (launch_state .resume exec commands db0) (cmd_hash c)).isSome = true := by
      cases h0 : db_get db0 (cmd_hash c) with
      | some record =>
        rw [launch_state]
        exact db_get_merge_isSome_mono (by rw [h0]; rfl)
      | none =>
        have hq : c ∈ (plan .resume db0 commands).job_queue :=
          plan_enqueues_unrecorded h0 false hc
        rw [launch_state]
        exact db_get_merge_isSome_of_mem (List.mem_map_of_mem exec hq)
          (by rw [(hexec c).1])
    obtain ⟨record, hrec⟩ := Option.isSome_iff_exists.mp hsome
    obtain ⟨s, hs⟩ := prior_status_eq_some_of_wf hwf1 hrec
    exact ⟨s, by rw [prior_status, hrec]; simpa using hs⟩
  have hmain := planGo_all_skipped hall
  refine ⟨hmain.1, hmain.2, ?_⟩
  show merge_results _ ((plan .resume _ commands).job_queue.map exec) = _
  have hq : (plan Mode.resume (launch_state .resume exec commands db0) commands).job_queue = [] :=
    hmain.1
  rw [hq]
  rfl

/-- C3 witness: two resume launches over a concrete command list and an
empty initial store. -/
theorem launch_resume_second_run_noop_witness :
    (∀ c : String, ((fun c => (⟨0, 0, some 0, c, []⟩ : Record)) c).command = c
      ∧ (((fun c => (⟨0, 0, some 0, c, []⟩ : Record)) c).status).isSome = true)
    ∧ WFDb []
    ∧ ((plan .resume (launch_state .resume (fun c => ⟨0, 0, some 0, c, []⟩) ["a", "b"] []) ["a", "b"]).job_queue = []
      ∧ (plan .resume (launch_state .resume (fun c => ⟨0, 0, some 0, c, []⟩) ["a", "b"] []) ["a", "b"]).num_skipped = 2
      ∧ launch_state .resume (fun c => ⟨0, 0, some 0, c, []⟩) ["a", "b"]
          (launch_state .resume (fun c => ⟨0, 0, some 0, c, []⟩) ["a", "b"] [])
        = launch_state .resume (fun c => ⟨0, 0, some 0, c, []⟩) ["a", "b"] []) := by
  refine ⟨fun c => ⟨rfl, rfl⟩, fun p hp => absurd hp (List.not_mem_nil p), ?_⟩
  exact launch_resume_second_run_noop (fun c => ⟨0, 0, some 0, c, []⟩) ["a", "b"] []
    (fun c => ⟨rfl, rfl⟩) (fun p hp => absurd hp (List.not_mem_nil p))

/-- C2: the `launch` planner (`src/argmapper/cli.py:272-288`), in resume
mode, applied to a single command whose state-database record lacks a
`status` field: the command is silently dropped — it is neither enqueued
nor counted in either counter, although the spec says it must be enqueued. -/
theorem planner_drops_malformed_record :
    plan .resume [(cmd_hash "c", ⟨0, 0, none, "c", []⟩)] ["c"] = ⟨[], 0, 0⟩
    ∧ plan .retry_failed [(cmd_hash "c", ⟨0, 0, none, "c", []⟩)] ["c"] = ⟨[], 0, 0⟩ := by
  constructor <;>
    simp [plan, planGo, db_get]

/-- `itertools.product` over a list of candidate-value lists, in the order
`itertools` yields tuples (the rightmost factor varies fastest). -/
def product_lists {α : Type} : List (List α) → List (List α)
  | [] => [[]]
  | l :: ls => (l.map (fun x => (product_lists ls).map (fun t => x :: t))).flatten

/-- Rendering of one parameter value inside an f-string (Python `str()` of
the YAML scalar). -/
def showValue : Value → String
  | .VInt z => toString z
  | .VStr s => s

/-- `get_cmd_arg_str` (`src/argmapper/cli.py:35-40`): space-joined
`--name=value` flags in mapping order. -/
def get_cmd_arg_str (kwargs : List (String × Value)) : String :=
  String.intercalate " " (kwargs.map (fun kv => "--" ++ kv.1 ++ "=" ++ showValue kv.2))

/-- `program.replace("'", "\\'")` (`src/argmapper/cli.py:110`): escape each
single quote (character 39) with a backslash (character 92). -/
def escape_program (p : String) : String :=
  String.mk (p.data.foldr
    (fun c acc =>
      if c = Char.ofNat 39 then Char.ofNat 92 :: Char.ofNat 39 :: acc else c :: acc)
    [])

/-- `RUN_CMD_TEMPLATE = "{program} {args}"` (`src/argmapper/cli.py:32`). -/
def run_cmd_template (program args : String) : String :=
  program ++ " " ++ args

/-- `generate_commands` (`src/argmapper/cli.py:106-118`): one command per
element of the cartesian product of the parameter value lists, rendered by
zipping the parameter names (in mapping order) with the chosen values. -/
def generate_commands (program : String) (config : List (String × List Value)) : List String :=
  (product_lists (config.map Prod.snd)).map (fun vs =>
    run_cmd_template (escape_program program)
      (get_cmd_arg_str ((config.map Prod.fst).zip vs)))

section GridLemmas

theorem product_lists_length {α : Type} :
    ∀ ls : List (List α), (product_lists ls).length = (ls.map List.length).prod := by
  intro ls
  induction ls with
  | nil => rfl
  | cons l rest ih =>
    rw [product_lists, List.map_cons, List.prod_cons, ← ih]
    induction l with
    | nil => simp
    | cons x xs ihx =>
      rw [List.map_cons, List.flatten_cons, List.length_append, ihx, List.length_cons,
        List.length_map]
      ring

theorem product_lists_eq_nil {α : Type} :
    ∀ {ls : List (List α)}, (∃ l ∈ ls, l = []) → product_lists ls = [] := by
  intro ls
  induction ls with
  | nil => intro h; simp at h
  | cons l rest ih =>
    intro h
    obtain ⟨l2, hl2, he⟩ := h
    rcases List.mem_cons.mp hl2 with h1 | h2
    · subst h1
      subst he
      rfl
    · rw [product_lists, ih ⟨l2, h2, he⟩]
      simp

theorem escape_program_eq_self {p : String}
    (hq : ∀ c ∈ p.data, c ≠ Char.ofNat 39) : escape_program p = p := by
  have h : ∀ l : List Char, (∀ c ∈ l, c ≠ Char.ofNat 39) →
      l.foldr (fun c acc =>
        if c = Char.ofNat 39 then Char.ofNat 92 :: Char.ofNat 39 :: acc else c :: acc) []
      = l := by
    intro l
    induction l with
    | nil => intro _; rfl
    | cons c cs ih =>
      intro hl
      rw [List.foldr_cons, if_neg (hl c (List.mem_cons_self _ _)),
        ih (fun c2 hc2 => hl c2 (List.mem_cons_of_mem _ hc2))]
  rw [escape_program, h p.data hq]

theorem string_append_empty (s : String) : s ++ "" = s := by
  apply String.ext
  rw [String.data_append]
  exact List.append_nil _

end GridLemmas

/-- C4: for every program string (without single quotes, which the source
escapes) and ordered mapping of parameter names to value lists, grid
expansion outputs one command per element of the cartesian product of the
value lists, in standard lexicographic cartesian-product order over the
input lists, each command being the program followed by `--name=value`
flags in the mapping's iteration order; in particular expanding
`{a: [1,2], b: [x]}` over program `P` yields exactly
`["P --a=1 --b=x", "P --a=2 --b=x"]` in that order. -/
theorem grid_expansion_product (program : String) (config : List (String × List Value))
    (hq : ∀ c ∈ program.data, c ≠ Char.ofNat 39) :
    generate_commands program config
      = (product_lists (config.map Prod.snd)).map (fun vs =>
          program ++ " " ++ get_cmd_arg_str ((config.map Prod.fst).zip vs))
    ∧ (generate_commands program config).length = ((config.map Prod.snd).map List.length).prod
    ∧ generate_commands "P" [("a", [.VInt 1, .VInt 2]), ("b", [.VStr "x"])]
        = ["P --a=1 --b=x", "P --a=2 --b=x"] := by
  refine ⟨?_, ?_, by decide⟩
  · rw [generate_commands, escape_program_eq_self hq]
    rfl
  · rw [generate_commands, List.length_map]
    exact product_lists_length _

/-- C4 witness: the spec's own example, with the no-quote hypothesis
discharged on the concrete program `P`. -/
theorem grid_expansion_product_witness :
    (∀ c ∈ ("P" : String).data, c ≠ Char.ofNat 39)
    ∧ (generate_commands "P" [("a", [.VInt 1, .VInt 2]), ("b", [.VStr "x"])]
        = (product_lists ([("a", [Value.VInt 1, Value.VInt 2]), ("b", [Value.VStr "x"])].map Prod.snd)).map
            (fun vs => "P" ++ " " ++ get_cmd_arg_str
              (([("a", [Value.VInt 1, Value.VInt 2]), ("b", [Value.VStr "x"])].map Prod.fst).zip vs))
      ∧ (generate_commands "P" [("a", [.VInt 1, .VInt 2]), ("b", [.VStr "x"])]).length
          = (([("a", [Value.VInt 1, Value.VInt 2]), ("b", [Value.VStr "x"])].map Prod.snd).map List.length).prod
      ∧ generate_commands "P" [("a", [.VInt 1, .VInt 2]), ("b", [.VStr "x"])]
          = ["P --a=1 --b=x", "P --a=2 --b=x"]) :=
  ⟨by decide, grid_expansion_product "P" [("a", [.VInt 1, .VInt 2]), ("b", [.VStr "x"])] (by decide)⟩

/-- C5 counterexample: with zero parameters the generated command is the
program followed by a trailing space (`RUN_CMD_TEMPLATE = "{program} {args}"`
with empty `args`), not the bare program string. -/
theorem grid_expansion_empty_config_counterexample :
    generate_commands "P" [] = ["P "]
    ∧ generate_commands "P" [] ≠ ["P"] := by
  constructor
  · decide
  · decide

/-- C5 amended: with zero parameters grid expansion yields exactly one
command, the (quote-escaped) program followed by a single trailing space;
and if any parameter's value list is empty it yields zero commands. -/
theorem grid_expansion_degenerate (program : String) (config : List (String × List Value)) :
    generate_commands program [] = [escape_program program ++ " "]
    ∧ ((∃ p ∈ config, p.2 = ([] : List Value)) → generate_commands program config = []) := by
  constructor
  · have h0 : generate_commands program [] = [escape_program program ++ " " ++ ""] := rfl
    rw [h0, string_append_empty]
  · intro h
    obtain ⟨p, hp, hpe⟩ := h
    rw [generate_commands, product_lists_eq_nil ⟨p.2, List.mem_map_of_mem Prod.snd hp, hpe⟩]
    rfl

/-- C5 witness: a concrete zero-parameter expansion and a concrete
empty-value-list expansion. -/
theorem grid_expansion_degenerate_witness :
    (∃ p ∈ [("a", ([] : List Value))], p.2 = ([] : List Value))
    ∧ generate_commands "Q" [] = [escape_program "Q" ++ " "]
    ∧ generate_commands "Q" [("a", [])] = [] :=
  ⟨⟨("a", []), by simp, rfl⟩,
   (grid_expansion_degenerate "Q" [("a", [])]).1,
   (grid_expansion_degenerate "Q" [("a", [])]).2 ⟨("a", []), by simp, rfl⟩⟩

/-- One `parameters` section of a grid specification: the optional keys the
source reads with `.get` (`src/batchrun/spec.py:44-49`). -/
structure ParamSection where
  values : Option (List Value)
  value : Option Value
  min : Option Int
  max : Option Int
  step : Option Int
  deriving DecidableEq, Repr

/-- A grid-specification document: the two top-level keys the source reads
(`src/batchrun/spec.py:33-41`). -/
structure SpecDoc where
  program : Option String
  parameters : Option (List (String × ParamSection))
  deriving DecidableEq, Repr

/-- Python truthiness of an optional YAML list (`if parameter_values:`,
`src/batchrun/spec.py:50`): present and non-empty. -/
def listTruthy : Option (List Value) → Bool
  | none => false
  | some l => !l.isEmpty

/-- Python truthiness of an optional YAML scalar (`elif parameter_value:`,
`src/batchrun/spec.py:52`): present and neither `0` nor the empty string. -/
def valTruthy : Option Value → Bool
  | none => false
  | some (.VInt z) => z != 0
  | some (.VStr s) => !(s == "")

/-- Python truthiness of an optional integer (`elif parameter_max:`,
`src/batchrun/spec.py:54`): present and nonzero. -/
def intTruthy : Option Int → Bool
  | none => false
  | some z => z != 0

/-- The element count of Python `range(start, stop, step)`:
`max(0, ceil((stop - start) / step))`, written with natural-number
ceiling division on the sign-adjusted distance. -/
def pyRangeCount (start stop step : Int) : Nat :=
  if 0 < step
  then ((stop - start).toNat + step.toNat - 1) / step.toNat
  else ((start - stop).toNat + (-step).toNat - 1) / (-step).toNat

/-- The element list of Python `range(start, stop, step)` (for nonzero
`step`): the arithmetic progression from `start` in increments of `step`,
stopping before `stop`. -/
def pyRangeList (start stop step : Int) : List Int :=
  (List.range (pyRangeCount start stop step)).map (fun i : ℕ => start + step * (i : Int))

/-- Python `range(start, stop, step)` as called at
`src/batchrun/spec.py:56-64`: raises `ValueError` when `step = 0`. -/
def pyRange (start stop step : Int) : Except String (List Int) :=
  if step = 0 then Except.error "ValueError: range() arg 3 must not be zero"
  else Except.ok (pyRangeList start stop step)

/-- One iteration of the parameter-section loop of `parse_spec`
(`src/batchrun/spec.py:44-64`): a truthy `values` list wins, then a truthy
single `value`, then a truthy `max` opens the range cases keyed on whether
`min` and `step` are present (`is not None`); otherwise the parameter is
skipped.  (The `argmapper` copy, `src/argmapper/cli.py:121-146`, is the
same loop without the range branch.) -/
def parse_param_section (name : String) (sec : ParamSection) :
    Except String (List (String × List Value)) :=
  if listTruthy sec.values then Except.ok [(name, sec.values.getD [])]
  else if valTruthy sec.value then Except.ok [(name, [sec.value.getD (.VInt 0)])]
  else if intTruthy sec.max then
    match sec.min, sec.step with
    | some mn, some st =>
      (pyRange mn (sec.max.getD 0) st).map (fun l => [(name, l.map Value.VInt)])
    | some mn, none =>
      (pyRange mn (sec.max.getD 0) 1).map (fun l => [(name, l.map Value.VInt)])
    | none, _ =>
      (pyRange 0 (sec.max.getD 0) 1).map (fun l => [(name, l.map Value.VInt)])
  else Except.ok []

/-- The parameter-section loop of `parse_spec`, accumulating the
configuration in document order. -/
def parse_sections : List (String × ParamSection) → List (String × List Value) →
    Except String (List (String × List Value))
  | [], acc => Except.ok acc
  | ns :: rest, acc =>
    match parse_param_section ns.1 ns.2 with
    | Except.error e => Except.error e
    | Except.ok part => parse_sections rest (acc ++ part)

/-- `parse_spec` (`src/batchrun/spec.py:26-66`): a missing `program` or
`parameters` top-level key aborts with a `Spec error` message
(`sys.exit`); otherwise each parameter section contributes its candidate
list in order. -/
def parse_spec (doc : SpecDoc) : Except String (String × List (String × List Value)) :=
  match doc.program with
  | none => Except.error "Spec error: executable not specified."
  | some program =>
    match doc.parameters with
    | none => Except.error "Spec error: parameters not specified."
    | some sections =>
      (parse_sections sections []).map (fun config => (program, config))

section RangeLemmas

theorem pyRangeCount_iff_pos {a b s : Int} (hs : 0 < s) (i : ℕ) :
    i < pyRangeCount a b s ↔ a + s * i < b := by
  rw [pyRangeCount, if_pos hs]
  have hs1 : 0 < s.toNat := by omega
  by_cases hab : b ≤ a
  · have hm : (b - a).toNat = 0 := by omega
    rw [hm]
    constructor
    · intro h
      exfalso
      have hz : (0 + s.toNat - 1) / s.toNat = 0 := Nat.div_eq_of_lt (by omega)
      omega
    · intro h
      exfalso
      have hge : 0 ≤ s * (i : Int) := mul_nonneg (le_of_lt hs) (Int.natCast_nonneg i)
      omega
  · push_neg at hab
    have hm1 : 1 ≤ (b - a).toNat := by omega
    rw [Nat.lt_iff_add_one_le, Nat.le_div_iff_mul_le hs1, Nat.succ_mul]
    have hcast : ((i * s.toNat : ℕ) : Int) = s * i := by
      push_cast
      rw [Int.toNat_of_nonneg (le_of_lt hs)]
      ring
    constructor
    · intro h
      have h2 : i * s.toNat < (b - a).toNat := by omega
      have h3 := (Int.ofNat_lt).mpr h2
      rw [hcast, Int.toNat_of_nonneg (by omega : (0:Int) ≤ b - a)] at h3
      linarith
    · intro h
      have h3 : s * (i : Int) < b - a := by linarith
      have h4 : ((i * s.toNat : ℕ) : Int) < ((b - a).toNat : Int) := by
        rw [hcast, Int.toNat_of_nonneg (by omega : (0:Int) ≤ b - a)]
        exact h3
      have h5 : i * s.toNat < (b - a).toNat := by exact_mod_cast h4
      omega

theorem pyRangeList_mem_pos {a b s : Int} (hs : 0 < s) (z : Int) :
    z ∈ pyRangeList a b s ↔ ∃ i : ℕ, z = a + s * i ∧ z < b := by
  rw [pyRangeList]
  simp only [List.mem_map, List.mem_range]
  constructor
  · rintro ⟨i, hi, he⟩
    exact ⟨i, he.symm, he ▸ (pyRangeCount_iff_pos hs i).mp hi⟩
  · rintro ⟨i, he, hz⟩
    exact ⟨i, (pyRangeCount_iff_pos hs i).mpr (he ▸ hz), he.symm⟩

theorem pyRangeList_neg_eq {a b s : Int} :
    pyRangeList a b s = (pyRangeList (-a) (-b) (-s)).map (fun z => -z) := by
  rw [pyRangeList, pyRangeList, List.map_map]
  have hn : pyRangeCount a b s = pyRangeCount (-a) (-b) (-s) := by
    rw [pyRangeCount, pyRangeCount]
    rcases lt_trichotomy 0 s with h | h | h
    · rw [if_pos h, if_neg (by omega : ¬ (0:Int) < -s), neg_neg, neg_sub_neg]
    · have h0 : s = 0 := h.symm
      subst h0
      norm_num
    · rw [if_neg (by omega : ¬ (0:Int) < s), if_pos (by omega : (0:Int) < -s), neg_sub_neg]
  rw [hn]
  apply List.map_congr_left
  intro i _
  show a + s * i = -((-a) + (-s) * i)
  ring

theorem pyRangeList_mem_neg {a b s : Int} (hs : s < 0) (z : Int) :
    z ∈ pyRangeList a b s ↔ ∃ i : ℕ, z = a + s * i ∧ b < z := by
  rw [pyRangeList_neg_eq]
  simp only [List.mem_map]
  constructor
  · rintro ⟨w, hw, he⟩
    obtain ⟨i, hwe, hwb⟩ := (pyRangeList_mem_pos (by omega : (0:Int) < -s) w).mp hw
    refine ⟨i, by linarith, by linarith⟩
  · rintro ⟨i, he, hz⟩
    refine ⟨-z, ?_, by ring⟩
    refine (pyRangeList_mem_pos (by omega : (0:Int) < -s) (-z)).mpr ⟨i, by linarith, by linarith⟩

theorem pyRangeList_pairwise {a b s : Int} (hs : s ≠ 0) :
    List.Pairwise (fun x y => if 0 < s then x < y else y < x) (pyRangeList a b s) := by
  rw [pyRangeList]
  by_cases h : 0 < s
  · refine List.Pairwise.map _ (fun i j hij => ?_) (List.pairwise_lt_range _)
    rw [if_pos h]
    have hij2 : (i : Int) < j := by exact_mod_cast hij
    have hm := mul_lt_mul_of_pos_left hij2 h
    linarith
  · have hneg : s < 0 := by omega
    refine List.Pairwise.map _ (fun i j hij => ?_) (List.pairwise_lt_range _)
    rw [if_neg h]
    have hij2 : (i : Int) < j := by exact_mod_cast hij
    have hm := mul_lt_mul_of_neg_left hij2 hneg
    linarith

end RangeLemmas

/-- C6 counterexample: a parameter section with none of the recognized keys
is silently dropped, and parsing succeeds instead of aborting with a
specification error. -/
theorem parse_spec_unrecognized_section_counterexample :
    parse_spec ⟨some "P", some [("a", ⟨none, none, none, none, none⟩)]⟩
      = Except.ok ("P", []) := by
  rfl

/-- C6 amended: a parameter section with none of the recognized keys is
silently omitted from the parsed grid — parsing proceeds exactly as if the
section were absent; only a missing top-level `program` or `parameters` key
aborts with a specification error before any execution. -/
theorem parse_spec_unrecognized_section_dropped (prog name : String)
    (sec : ParamSection) (rest : List (String × ParamSection))
    (hv : sec.values = none) (h1 : sec.value = none) (hm : sec.max = none) :
    parse_spec ⟨some prog, some ((name, sec) :: rest)⟩
      = parse_spec ⟨some prog, some rest⟩
    ∧ parse_spec ⟨none, some rest⟩
        = Except.error "Spec error: executable not specified."
    ∧ parse_spec ⟨some prog, none⟩
        = Except.error "Spec error: parameters not specified." := by
  refine ⟨?_, rfl, rfl⟩
  have hdrop : parse_param_section name sec = Except.ok [] := by
    rw [parse_param_section, hv, h1, hm]
    rfl
  rw [parse_spec, parse_spec]
  simp [parse_sections, hdrop]

/-- C6 witness: a concrete keyless section is dropped while a later section
survives. -/
theorem parse_spec_unrecognized_section_dropped_witness :
    (⟨none, none, none, none, none⟩ : ParamSection).values = none
    ∧ (parse_spec ⟨some "P", some [("a", ⟨none, none, none, none, none⟩),
          ("b", ⟨some [Value.VInt 1], none, none, none, none⟩)]⟩
        = parse_spec ⟨some "P", some [("b", ⟨some [Value.VInt 1], none, none, none, none⟩)]⟩
      ∧ parse_spec ⟨none, some [("b", ⟨some [Value.VInt 1], none, none, none, none⟩)]⟩
          = Except.error "Spec error: executable not specified."
      ∧ parse_spec ⟨some "P", none⟩
          = Except.error "Spec error: parameters not specified.") :=
  ⟨rfl, parse_spec_unrecognized_section_dropped "P" "a" _ _ rfl rfl rfl⟩

/-- C9 counterexample: a `min`/`max`/`step` section with `max = 0` is
dropped entirely (the `elif parameter_max:` truthiness test fails), although
the claimed half-open range `range(-3, 0, 1) = [-3, -2, -1]` is non-empty. -/
theorem range_zero_max_counterexample :
    parse_spec ⟨some "P", some [("a", ⟨none, none, some (-3), some 0, some 1⟩)]⟩
      = Except.ok ("P", [])
    ∧ pyRange (-3) 0 1 = Except.ok [-3, -2, -1] := by
  constructor
  · rfl
  · rfl

/-- C9 amended: for a parameter section carrying only numeric `min`, `max`,
`step` with `max` truthy (nonzero) and `step` nonzero, the parsed candidate
list is Python `range(min, max, step)`: exactly the values `min + step * i`
on the `max`-exclusive side of `max`, in strictly increasing (positive
step) or strictly decreasing (negative step) order; with `min` and `max`
only the increment is 1, and with `max` only the range starts at 0. -/
theorem parse_spec_range_semantics (name : String) (mn mx st : Int)
    (hmx : mx ≠ 0) (hst : st ≠ 0) :
    (parse_param_section name ⟨none, none, some mn, some mx, some st⟩
        = Except.ok [(name, (pyRangeList mn mx st).map Value.VInt)]
      ∧ ∀ z : Int, z ∈ pyRangeList mn mx st ↔
          ∃ i : ℕ, z = mn + st * i ∧ (if 0 < st then z < mx else mx < z))
    ∧ parse_param_section name ⟨none, none, some mn, some mx, none⟩
        = Except.ok [(name, (pyRangeList mn mx 1).map Value.VInt)]
    ∧ parse_param_section name ⟨none, none, none, some mx, none⟩
        = Except.ok [(name, (pyRangeList 0 mx 1).map Value.VInt)]
    ∧ List.Pairwise (fun x y => if 0 < st then x < y else y < x)
        (pyRangeList mn mx st) := by
  refine ⟨⟨?_, ?_⟩, ?_, ?_, pyRangeList_pairwise hst⟩
  · simp [parse_param_section, listTruthy, valTruthy, intTruthy, pyRange, hmx, hst, Except.map]
  · intro z
    by_cases h : 0 < st
    · rw [if_pos h]
      exact pyRangeList_mem_pos h z
    · rw [if_neg h]
      exact pyRangeList_mem_neg (by omega) z
  · simp [parse_param_section, listTruthy, valTruthy, intTruthy, pyRange, hmx, Except.map]
  · simp [parse_param_section, listTruthy, valTruthy, intTruthy, pyRange, hmx, Except.map]

/-- C9 witness: the section `{min: 1, max: 7, step: 2}` parses to
`range(1, 7, 2)`. -/
theorem parse_spec_range_semantics_witness :
    (7 : Int) ≠ 0
    ∧ (2 : Int) ≠ 0
    ∧ ((parse_param_section "a" ⟨none, none, some 1, some 7, some 2⟩
          = Except.ok [("a", (pyRangeList 1 7 2).map Value.VInt)]
        ∧ ∀ z : Int, z ∈ pyRangeList 1 7 2 ↔
            ∃ i : ℕ, z = 1 + 2 * i ∧ (if 0 < (2:Int) then z < 7 else 7 < z))
      ∧ parse_param_section "a" ⟨none, none, some 1, some 7, none⟩
          = Except.ok [("a", (pyRangeList 1 7 1).map Value.VInt)]
      ∧ parse_param_section "a" ⟨none, none, none, some 7, none⟩
          = Except.ok [("a", (pyRangeList 0 7 1).map Value.VInt)]
      ∧ List.Pairwise (fun x y => if 0 < (2:Int) then x < y else y < x)
          (pyRangeList 1 7 2)) :=
  ⟨by decide, by decide, parse_spec_range_semantics "a" 1 7 2 (by decide) (by decide)⟩

section HashLemmas

theorem hex8_length (w : Nat) : (hex8 w).length = 8 := by
  simp [hex8]

theorem hexChars_flatten_length :
    ∀ ws : List Nat, ((ws.map hex8).flatten).length = 8 * ws.length := by
  intro ws
  induction ws with
  | nil => rfl
  | cons w rest ih =>
    rw [List.map_cons, List.flatten_cons, List.length_append, ih, hex8_length,
      List.length_cons]
    ring

theorem sha256hexdigest_length (msg : List Nat) :
    (sha256hexdigest msg).length = 64 := by
  rw [sha256hexdigest, hexChars_flatten_length]
  rfl

end HashLemmas

/-- C8: the command-identity function `cmd_hash` is pure and deterministic
with fixed output length: identical command text always yields the same id,
the id has length 16 for every input, and it is a prefix of the full
SHA-256 hex digest of the command text's UTF-8 bytes. -/
theorem cmd_hash_fixed_length_prefix (cmd : String) :
    (cmd_hash cmd).length = 16
    ∧ (cmd_hash cmd).data <+: sha256hexdigest (utf8Bytes cmd)
    ∧ ∀ cmd2 : String, cmd = cmd2 → cmd_hash cmd = cmd_hash cmd2 := by
  refine ⟨?_, ?_, fun cmd2 h => h ▸ rfl⟩
  · show ((sha256hexdigest (utf8Bytes cmd)).take 16).length = 16
    rw [List.length_take, sha256hexdigest_length]
    rfl
  · show (sha256hexdigest (utf8Bytes cmd)).take 16 <+: sha256hexdigest (utf8Bytes cmd)
    exact List.take_prefix _ _

/-- Python `token.split(sep)` on a character list (`str.split` with an
explicit separator: adjacent separators yield empty fields). -/
def split_on_char (sep : Char) : List Char → List (List Char)
  | [] => [[]]
  | c :: cs =>
    if c = sep then [] :: split_on_char sep cs
    else
      match split_on_char sep cs with
      | [] => [[c]]
      | g :: gs => (c :: g) :: gs

/-- Python dict assignment `kwargs[k] = v` for the parsed flag mapping. -/
def kw_set (kwargs : List (List Char × List Char)) (key v : List Char) :
    List (List Char × List Char) :=
  if key ∈ kwargs.map Prod.fst
  then kwargs.map (fun p => if p.1 = key then (key, v) else p)
  else kwargs ++ [(key, v)]

/-- The token loop of `parse_args` (`src/argmapper/cli.py:43-54`), taken
over the `shlex.split` token list (tokenization is delegated to the Python
standard library, an external collaborator): a token starting with `-` is
split on `=`, and the unpacking `k, v = token.split("=")` raises
`ValueError` unless the split has exactly two parts; the key is then
stripped of leading dashes and assigned into the kwargs dict. -/
def parse_args_go (kwargs : List (List Char × List Char)) :
    List (List Char) → Except Unit (List (List Char × List Char))
  | [] => Except.ok kwargs
  | [] :: ts => parse_args_go kwargs ts
  | (c :: rest) :: ts =>
    if c = '-' then
      match split_on_char '=' (c :: rest) with
      | [k, v] => parse_args_go (kw_set kwargs (k.dropWhile (fun ch => ch = '-')) v) ts
      | _ => Except.error ()
    else parse_args_go kwargs ts

/-- `parse_args` (`src/argmapper/cli.py:43-54`) over a token list. -/
def parse_args (tokens : List (List Char)) : Except Unit (List (List Char × List Char)) :=
  parse_args_go [] tokens

/-- The `ExecutionRecord` construction of `exec_job`
(`src/argmapper/cli.py:61-80`): `parse_args` runs on line 62, before the
subprocess call on line 66, so a `ValueError` there prevents any record
from being produced (and the command from being run). -/
def exec_job_record (command : String) (tokens : List (List Char))
    (start runtime : Rat) (status : Int) : Except Unit Record :=
  (parse_args tokens).map (fun kw =>
    ⟨start, runtime, some status, command,
      kw.map (fun p => (String.mk p.1, String.mk p.2))⟩)

section ParseArgsLemmas

theorem split_on_char_no_sep {sep : Char} :
    ∀ {l : List Char}, sep ∉ l → split_on_char sep l = [l] := by
  intro l
  induction l with
  | nil => intro _; rfl
  | cons c cs ih =>
    intro h
    simp only [List.mem_cons, not_or] at h
    rw [split_on_char, if_neg (fun he => h.1 he.symm), ih h.2]

end ParseArgsLemmas

/-- C10: `parse_args`, which `exec_job` calls to build every
`ExecutionRecord`'s `parameters` field, is partial over command texts: for
any token list containing a token that begins with `-` but contains no `=`
character (for example a bare `--flag`), `parse_args` raises `ValueError`
instead of returning a mapping, so the `ExecutionRecord` construction of
`exec_job` fails for such commands before the command is run. -/
theorem parse_args_raises (tokens : List (List Char))
    (h : ∃ t ∈ tokens, t.head? = some '-' ∧ '=' ∉ t) :
    parse_args tokens = Except.error ()
    ∧ ∀ (command : String) (start runtime : Rat) (status : Int),
        exec_job_record command tokens start runtime status = Except.error () := by
  have hgo : ∀ (toks : List (List Char)),
      (∃ t ∈ toks, t.head? = some '-' ∧ '=' ∉ t) →
      ∀ kwargs, parse_args_go kwargs toks = Except.error () := by
    intro toks
    induction toks with
    | nil => intro hh; simp at hh
    | cons t ts ih =>
      intro hh kwargs
      obtain ⟨bad, hbad, hh1, hh2⟩ := hh
      rcases List.mem_cons.mp hbad with h1 | h2
      · subst h1
        cases bad with
        | nil => simp at hh1
        | cons c rest =>
          have hc : c = '-' := by simpa using hh1
          rw [parse_args_go, if_pos hc, split_on_char_no_sep hh2]
      · cases t with
        | nil =>
          rw [parse_args_go]
          exact ih ⟨bad, h2, hh1, hh2⟩ kwargs
        | cons c rest =>
          rw [parse_args_go]
          by_cases hc : c = '-'
          · rw [if_pos hc]
            cases hsp : split_on_char '=' (c :: rest) with
            | nil => rfl
            | cons k gs =>
              cases gs with
              | nil => rfl
              | cons v gs2 =>
                cases gs2 with
                | nil => exact ih ⟨bad, h2, hh1, hh2⟩ _
                | cons g3 gs3 => rfl
          · rw [if_neg hc]
            exact ih ⟨bad, h2, hh1, hh2⟩ kwargs
  have hmain : parse_args tokens = Except.error () := by
    rw [parse_args]
    exact hgo tokens h []
  refine ⟨hmain, fun command start runtime status => ?_⟩
  rw [exec_job_record, hmain]
  rfl

/-- C10 witness: the bare flag token `--f` (no `=`) makes `parse_args` and
the record construction fail. -/
theorem parse_args_raises_witness :
    (∃ t ∈ [['-', '-', 'f']], t.head? = some '-' ∧ '=' ∉ t)
    ∧ parse_args [['-', '-', 'f']] = Except.error ()
    ∧ exec_job_record "x --f" [['-', '-', 'f']] 0 0 0 = Except.error () :=
  ⟨by decide, (parse_args_raises [['-', '-', 'f']] (by decide)).1,
   (parse_args_raises [['-', '-', 'f']] (by decide)).2 "x --f" 0 0 0⟩

end Batchrun
